import Mathlib

/-!
# Verification of the speech-playback / highlight core

Shallow embedding of the repository's speech playback controller
(`src/tts_engine.py`), sentence chunker (`split_into_sentences`) and the
PDF viewer's TTS-highlight / text-position machinery (`src/pdf_viewer.py`),
together with theorems settling the frozen claims about them.

Strings are modelled as `List Char`.  The two threads of the engine
(control thread and worker thread) are modelled by an executable
small-step interpreter driven by an explicit schedule of labels, at the
granularity of single Python statements, so that racy interleavings of the
real program correspond to schedules of the model.
-/

namespace Akshara

/-! ## Python text primitives

`str.split()` splits on runs of Unicode whitespace; for the ASCII texts the
claims are about, whitespace is one of the six characters below.
`str.lower()` is modelled on ASCII letters. -/

def isPySpace (c : Char) : Bool :=
  c == ' ' || c == '\t' || c == '\n' || c == '\r' || c == '\x0b' || c == '\x0c'

def pyLower (c : Char) : Char :=
  if 'A' ≤ c && c ≤ 'Z' then Char.ofNat (c.toNat + 32) else c

/-- `str.strip()`: remove leading and trailing whitespace. -/
def stripChars (xs : List Char) : List Char :=
  ((xs.dropWhile isPySpace).reverse.dropWhile isPySpace).reverse

/-- Scan for `str.split()`: `cur` is the current word, reversed; a
whitespace character ends it (dropping it when empty, i.e. between runs). -/
def splitWsAux (cur : List Char) : List Char → List (List Char)
  | [] => if cur.isEmpty then [] else [cur.reverse]
  | c :: rest =>
    if isPySpace c then
      if cur.isEmpty then splitWsAux [] rest
      else cur.reverse :: splitWsAux [] rest
    else splitWsAux (c :: cur) rest

/-- `str.split()` (no separator argument): words, dropping empty pieces. -/
def splitWs (xs : List Char) : List (List Char) :=
  splitWsAux [] xs

/-- `' '.join(ws)`. -/
def joinSp (ws : List (List Char)) : List Char :=
  List.intercalate [' '] ws

/-- `' '.join(s.lower().split())` — the normalisation used by
`PDFPageWidget.find_text_position` on both the needle and the haystack. -/
def cleanText (xs : List Char) : List Char :=
  joinSp (splitWs (xs.map pyLower))

/-- `re.sub(r'\s+', ' ', text)`: replace every whitespace run by one space
(a whitespace character directly followed by more whitespace is dropped;
the last one of a run becomes `' '`). -/
def collapseWs : List Char → List Char
  | [] => []
  | [c] => if isPySpace c then [' '] else [c]
  | c :: d :: cs =>
    if isPySpace c && isPySpace d then collapseWs (d :: cs)
    else (if isPySpace c then ' ' else c) :: collapseWs (d :: cs)

/-- The normalisation `TTSEngine.speak` applies before chunking:
`re.sub(r'\s+', ' ', text).strip()`. -/
def normWs (xs : List Char) : List Char :=
  stripChars (collapseWs xs)

/-- `str.find(sub, start)` for a non-negative `start`: the least index
`i ≥ start` at which `sub` occurs in `s` (an empty `sub` matches at
`start` itself provided `start ≤ len(s)`); `none` when there is no such
index, in particular whenever `start > len(s)`. -/
def pyFind (s sub : List Char) (start : Nat) : Option Nat :=
  (List.range (s.length + 1)).find? fun i =>
    decide (start ≤ i) && decide (i + sub.length ≤ s.length) &&
      ((s.drop i).take sub.length == sub)

/-! ## The sentence chunker (`split_into_sentences`, tts_engine.py:23-29)

`re.split(r'(?<=[.!?])\s+', text)`: every whitespace run whose first
character is directly preceded by `.`, `!` or `?` is a separator.  The scan
below carries the current piece in reverse in `cur`; `cur.head?` is the
character immediately preceding the scan position (after a separator the
preceding character is separator whitespace, never punctuation, matching
the fresh `cur = []`). -/

def isSentEnd (c : Char) : Bool := c == '.' || c == '!' || c == '?'

def headPunct : List Char → Bool
  | [] => false
  | c :: _ => isSentEnd c

/-- The splitting scan: `inSep = true` while consuming the remainder of a
separator whitespace run (then `cur = []`). -/
def goSplit (inSep : Bool) (cur : List Char) : List Char → List (List Char)
  | [] => [cur.reverse]
  | c :: rest =>
    if inSep && isPySpace c then goSplit true cur rest
    else if isPySpace c && headPunct cur then
      cur.reverse :: goSplit true [] rest
    else goSplit false (c :: cur) rest

/-- `split_into_sentences` (tts_engine.py:23-29): split, then
`[s.strip() for s in sentences if s.strip()]`. -/
def splitIntoSentences (text : List Char) : List (List Char) :=
  ((goSplit false [] text).map stripChars).filter (fun s => !s.isEmpty)

/-! ## The PDF viewer (`pdf_viewer.py`)

`TextSpan.bbox` is omitted: none of the embedded operations reads it
(it is only consumed by painting, which is out of scope). -/

structure TextSpan where
  text : List Char
deriving DecidableEq, Repr

/-- The highlight-relevant state of `PDFPageWidget`. -/
structure PageState where
  spans : List TextSpan
  spanCharRanges : List (Nat × Nat)
  fullText : List Char
  ttsCharStart : Int
  ttsCharEnd : Int
  ttsHighlightSpans : List Nat
  showSel : Bool
deriving DecidableEq, Repr

/-- `_build_text_map` (pdf_viewer.py:77-91): per-span `(start, end)` offset
ranges in the concatenation, accounting for the single joining space. -/
def buildRanges (pos : Nat) : List TextSpan → List (Nat × Nat)
  | [] => []
  | s :: t => (pos, pos + s.text.length) :: buildRanges (pos + s.text.length + 1) t

/-- `clear_tts_highlight` (pdf_viewer.py:111-116). -/
def clearTtsHighlight (pg : PageState) : PageState :=
  { pg with ttsCharStart := -1, ttsCharEnd := -1, ttsHighlightSpans := [] }

/-- `hide_selection` (pdf_viewer.py:118-121). -/
def hideSelection (pg : PageState) : PageState :=
  { pg with showSel := false }

/-- `show_selection` (pdf_viewer.py:123-126). -/
def showSelection (pg : PageState) : PageState :=
  { pg with showSel := true }

/-- `set_page` (pdf_viewer.py:60-75), restricted to the text machinery:
rebuild the map and clear the state. -/
def setPage (pg : PageState) (spans : List TextSpan) : PageState :=
  clearTtsHighlight
    { pg with
      spans := spans
      spanCharRanges := buildRanges 0 spans
      fullText := joinSp (spans.map TextSpan.text)
      showSel := true }

/-- `set_tts_highlight_by_position` (pdf_viewer.py:128-144): store the
character range; for a non-negative range, highlight every span index whose
`[start, end)` range overlaps it. -/
def setTtsHighlightByPosition (pg : PageState) (s e : Int) : PageState :=
  let pg' := { pg with ttsCharStart := s, ttsCharEnd := e, ttsHighlightSpans := [] }
  if s < 0 || e < 0 then pg'
  else
    { pg' with
      ttsHighlightSpans :=
        ((pg.spanCharRanges.enum.filter fun pr =>
          decide ((pr.2.1 : Int) < e) && decide ((pr.2.2 : Int) > s)).map Prod.fst) }

/-- `find_text_position` (pdf_viewer.py:146-155). -/
def findTextPosition (pg : PageState) (searchText : List Char) (startFrom : Nat) :
    Int × Int :=
  let sc := cleanText searchText
  let fc := cleanText pg.fullText
  match pyFind fc sc startFrom with
  | some p => ((p : Int), ((p + sc.length : Nat) : Int))
  | none => (-1, -1)

/-- `PDFViewerWidget`'s highlight-relevant state. -/
structure Viewer where
  page : PageState
  currentReadPosition : Nat
deriving DecidableEq, Repr

/-- `highlight_text` (pdf_viewer.py:331-353). -/
def highlightText (v : Viewer) (text : List Char) : Viewer :=
  if text.isEmpty then
    { v with page := clearTtsHighlight (showSelection v.page), currentReadPosition := 0 }
  else
    let pg := hideSelection v.page
    let se := findTextPosition pg text v.currentReadPosition
    if 0 ≤ se.1 then
      { v with page := setTtsHighlightByPosition pg se.1 se.2
               currentReadPosition := se.2.toNat }
    else
      let se2 := findTextPosition pg text 0
      if 0 ≤ se2.1 then
        { v with page := setTtsHighlightByPosition pg se2.1 se2.2
                 currentReadPosition := se2.2.toNat }
      else { v with page := pg }

/-! ## The speech playback controller (`tts_engine.py`)

Two threads share the engine's mutable fields: the control thread (the Qt
thread calling `speak`/`stop`/`pause`/`resume`) and the worker thread
running `_speak_thread`.  Each is modelled as a program counter over the
corresponding Python statements; an explicit schedule of labels decides
which thread executes its next statement, so every interleaving of the
real program corresponds to some schedule.

The external synthesizer (the Kokoro pipeline) and the audio sink
(`simpleaudio`) are outside the repository; their observable behaviour is
abstracted into the request: each chunk carries its synthesis outcome —
`none` when the generator raises for that chunk, `some n` when it yields
`n` audio segments.  An `audioDone` label models the sink finishing the
currently playing buffer, and `ctrlT` models `Thread.join(timeout=1.0)`
elapsing with the worker still alive (the join is bounded by construction
in Python, so the control thread can always take this step). -/

/-- A `speak` request: an identifier (standing for the text, used to tag
events) plus the synthesis outcome of each chunk. -/
structure Req where
  id : Nat
  chunks : List (Option Nat)
deriving DecidableEq, Repr

/-- An active `simpleaudio` play object: which request/chunk/segment it is
sounding, and whether it is still playing. -/
structure Play where
  req : Nat
  chunk : Nat
  seg : Nat
  playing : Bool
deriving DecidableEq, Repr

/-- The shared mutable fields of `TTSEngine` (tts_engine.py:45-60). -/
structure Sh where
  shouldStop : Bool
  isPaused : Bool
  isSpeaking : Bool
  playObj : Option Play
  threadReg : Option Nat
  text : Req
deriving DecidableEq, Repr

/-- Program counter of `_speak_thread` (tts_engine.py:106-199), one value
per blocking point / shared-state access. -/
inductive WPC
  /-- about to execute `speech_started.emit()` (line 108) -/
  | emitStarted
  /-- about to execute `_ensure_ready()` (line 111) -/
  | ensureReady
  /-- about to read `self._text` and chunk it (line 114) -/
  | readText
  /-- outer loop head: exhaustion test plus `if self._should_stop: break` (118-120) -/
  | chunkCheck
  /-- one iteration of `while self._is_paused and not self._should_stop` (123-124) -/
  | pauseWait1
  /-- `if self._should_stop: break` after the pause wait (126-127) -/
  | checkStop2
  /-- `self.word_changed.emit(sentence)` and the lazy generator creation (130-133) -/
  | emitChunk
  /-- the inner for's `next(generator)`: may raise, yield, or be exhausted (135) -/
  | segNext
  /-- inner `if self._should_stop: break` (136-137) -/
  | segCheck
  /-- one iteration of the inner pause wait (140-141) -/
  | segPauseWait
  /-- inner `if self._should_stop: break` after the pause wait (143-144) -/
  | segCheck2
  /-- the locked block playing the buffer (155-163) -/
  | playStep
  /-- one iteration of the `while True` playback wait (166-190) -/
  | waitCheck
  /-- one iteration of `while self._is_paused and not self._should_stop` inside
  the playback wait (187-188) -/
  | pausedHold
  /-- the `except` clause: `error_occurred.emit(...)` (192-193) -/
  | catchErr
  /-- `finally`: `self._is_speaking = False` (195) -/
  | fin1
  /-- `finally`: `self._is_paused = False` (196) -/
  | fin2
  /-- `finally`: `with lock: self._play_obj = None` (197-198) -/
  | fin3
  /-- `finally`: `self.speech_finished.emit()` (199) -/
  | fin4
  /-- the thread function has returned; `is_alive()` is false -/
  | done
deriving DecidableEq, Repr

/-- Local state of one worker thread. -/
structure WState where
  pc : WPC
  req : Req
  i : Nat
  j : Nat
deriving DecidableEq, Repr

/-- The notifications the engine emits, tagged with the worker thread `w`
that emits them (and for chunk events the request id carried by its text). -/
inductive Ev
  | started (w : Nat)
  | chunkAdv (w r i : Nat)
  | play (w r i j : Nat)
  | errEv (w : Nat)
  | finished (w : Nat)
deriving DecidableEq, Repr

/-- The control-thread API calls (`speak`, `stop`, `pause`, `resume`). -/
inductive Call
  | speak (r : Req)
  | stop
  | pause
  | resume
deriving DecidableEq, Repr

/-- Whole-system state: shared engine fields, all worker threads ever
spawned (indexed by thread id), the control thread's remaining calls and
statement index, its local condition register (the value read by the
check of a check-then-act `pause`/`resume`), and whether the Kokoro
import/initialisation succeeds (`_ensure_ready`). -/
structure St where
  sh : Sh
  workers : List WState
  prog : List Call
  cpc : Nat
  creg : Bool
  synthAvailable : Bool
deriving DecidableEq, Repr

/-- Schedule labels: `ctrl` = control thread executes its next statement
(blocking at a `join` whose worker is alive); `ctrlT` = same, but a join
passes by its 1.0s timeout elapsing; `wk w` = worker `w` executes its next
statement; `audioDone` = the audio sink finishes the current buffer. -/
inductive Lab
  | ctrl
  | ctrlT
  | wk (w : Nat)
  | audioDone
deriving DecidableEq, Repr

/-- One statement of `_speak_thread`, executed by worker `w`. -/
def wstep (avail : Bool) (w : Nat) (sh : Sh) (ws : WState) : Sh × WState × List Ev :=
  match ws.pc with
  | .emitStarted => (sh, { ws with pc := .ensureReady }, [.started w])
  | .ensureReady =>
    if avail then (sh, { ws with pc := .readText }, [])
    else (sh, { ws with pc := .catchErr }, [])
  | .readText => (sh, { ws with pc := .chunkCheck, req := sh.text, i := 0, j := 0 }, [])
  | .chunkCheck =>
    if sh.shouldStop || ws.req.chunks.length ≤ ws.i then (sh, { ws with pc := .fin1 }, [])
    else (sh, { ws with pc := .pauseWait1 }, [])
  | .pauseWait1 =>
    if sh.isPaused && !sh.shouldStop then (sh, ws, [])
    else (sh, { ws with pc := .checkStop2 }, [])
  | .checkStop2 =>
    if sh.shouldStop then (sh, { ws with pc := .fin1 }, [])
    else (sh, { ws with pc := .emitChunk }, [])
  | .emitChunk => (sh, { ws with pc := .segNext, j := 0 }, [.chunkAdv w ws.req.id ws.i])
  | .segNext =>
    match ws.req.chunks[ws.i]? with
    | none => (sh, { ws with pc := .catchErr }, [])
    | some none => (sh, { ws with pc := .catchErr }, [])
    | some (some n) =>
      if n ≤ ws.j then (sh, { ws with pc := .chunkCheck, i := ws.i + 1 }, [])
      else (sh, { ws with pc := .segCheck }, [])
  | .segCheck =>
    if sh.shouldStop then (sh, { ws with pc := .chunkCheck, i := ws.i + 1 }, [])
    else (sh, { ws with pc := .segPauseWait }, [])
  | .segPauseWait =>
    if sh.isPaused && !sh.shouldStop then (sh, ws, [])
    else (sh, { ws with pc := .segCheck2 }, [])
  | .segCheck2 =>
    if sh.shouldStop then (sh, { ws with pc := .chunkCheck, i := ws.i + 1 }, [])
    else (sh, { ws with pc := .playStep }, [])
  | .playStep =>
    if sh.shouldStop then (sh, { ws with pc := .chunkCheck, i := ws.i + 1 }, [])
    else
      ({ sh with playObj := some ⟨ws.req.id, ws.i, ws.j, true⟩ },
        { ws with pc := .waitCheck }, [.play w ws.req.id ws.i ws.j])
  | .waitCheck =>
    match sh.playObj with
    | none => (sh, { ws with pc := .segNext, j := ws.j + 1 }, [])
    | some p =>
      if !p.playing then (sh, { ws with pc := .segNext, j := ws.j + 1 }, [])
      else if sh.shouldStop then
        ({ sh with playObj := some { p with playing := false } },
          { ws with pc := .segNext, j := ws.j + 1 }, [])
      else if sh.isPaused then
        ({ sh with playObj := some { p with playing := false } },
          { ws with pc := .pausedHold }, [])
      else (sh, ws, [])
  | .pausedHold =>
    if sh.isPaused && !sh.shouldStop then (sh, ws, [])
    else (sh, { ws with pc := .segNext, j := ws.j + 1 }, [])
  | .catchErr => (sh, { ws with pc := .fin1 }, [.errEv w])
  | .fin1 => ({ sh with isSpeaking := false }, { ws with pc := .fin2 }, [])
  | .fin2 => ({ sh with isPaused := false }, { ws with pc := .fin3 }, [])
  | .fin3 => ({ sh with playObj := none }, { ws with pc := .fin4 }, [])
  | .fin4 => (sh, { ws with pc := .done }, [.finished w])
  | .done => (sh, ws, [])

/-- Is worker `t` finished (`Thread.is_alive()` false)?  An unregistered
id joins trivially. -/
def workerDone (st : St) (t : Nat) : Bool :=
  match st.workers[t]? with
  | none => true
  | some ws => ws.pc == .done

/-- Advance the control thread past the current statement, or pop the call. -/
def ctrlNext (st : St) (stmts : Nat) : St :=
  if st.cpc + 1 < stmts then { st with cpc := st.cpc + 1 }
  else { st with prog := st.prog.tail, cpc := 0 }

/-- The statements of `_full_stop` (tts_engine.py:201-218), indices 0-5,
shared by `stop()` and the head of `speak()`:
`_should_stop = True`; `_is_paused = False`; the locked
stop-and-clear of `_play_obj`; the bounded `join`; `_is_speaking = False`;
`_thread = None`. -/
def fullStopStep (st : St) (force : Bool) (stmts : Nat) : St :=
  match st.cpc with
  | 0 => ctrlNext { st with sh := { st.sh with shouldStop := true } } stmts
  | 1 => ctrlNext { st with sh := { st.sh with isPaused := false } } stmts
  | 2 => ctrlNext { st with sh := { st.sh with playObj := none } } stmts
  | 3 =>
    match st.sh.threadReg with
    | none => ctrlNext st stmts
    | some t => if workerDone st t || force then ctrlNext st stmts else st
  | 4 => ctrlNext { st with sh := { st.sh with isSpeaking := false } } stmts
  | _ => ctrlNext { st with sh := { st.sh with threadReg := none } } stmts

/-- One statement of the control thread (tts_engine.py: `speak` 90-104,
`stop` 220-222, `pause` 224-227, `resume` 229-232).  `speak`'s statements
6-11 are: the emptiness early return, `_text = text`,
`_should_stop = False`, `_is_paused = False`, `_is_speaking = True`, and
thread creation + start. -/
def cstep (force : Bool) (st : St) : St :=
  match st.prog with
  | [] => st
  | .speak r :: _ =>
    if st.cpc < 6 then fullStopStep st force 12
    else match st.cpc with
    | 6 => if r.chunks.isEmpty then { st with prog := st.prog.tail, cpc := 0 }
           else ctrlNext st 12
    | 7 => ctrlNext { st with sh := { st.sh with text := r } } 12
    | 8 => ctrlNext { st with sh := { st.sh with shouldStop := false } } 12
    | 9 => ctrlNext { st with sh := { st.sh with isPaused := false } } 12
    | 10 => ctrlNext { st with sh := { st.sh with isSpeaking := true } } 12
    | _ => ctrlNext
        { st with
          sh := { st.sh with threadReg := some st.workers.length }
          workers := st.workers ++ [⟨.emitStarted, ⟨0, []⟩, 0, 0⟩] } 12
  | .stop :: _ => fullStopStep st force 6
  | .pause :: _ =>
    match st.cpc with
    | 0 => ctrlNext { st with creg := st.sh.isSpeaking && !st.sh.isPaused } 2
    | _ => ctrlNext (if st.creg then { st with sh := { st.sh with isPaused := true } } else st) 2
  | .resume :: _ =>
    match st.cpc with
    | 0 => ctrlNext { st with creg := st.sh.isPaused } 2
    | _ => ctrlNext (if st.creg then { st with sh := { st.sh with isPaused := false } } else st) 2

/-- One step of the whole system under a schedule label. -/
def step (st : St) (l : Lab) : St × List Ev :=
  match l with
  | .ctrl => (cstep false st, [])
  | .ctrlT => (cstep true st, [])
  | .wk w =>
    match st.workers[w]? with
    | none => (st, [])
    | some ws =>
      let r := wstep st.synthAvailable w st.sh ws
      ({ st with sh := r.1, workers := st.workers.set w r.2.1 }, r.2.2)
  | .audioDone =>
    match st.sh.playObj with
    | some p => ({ st with sh := { st.sh with playObj := some { p with playing := false } } }, [])
    | none => (st, [])

/-- Run a schedule, collecting the emitted notifications in order. -/
def run (st : St) : List Lab → St × List Ev
  | [] => (st, [])
  | l :: ls =>
    let r := step st l
    let r' := run r.1 ls
    (r'.1, r.2 ++ r'.2)

/-- The engine as constructed (`__init__`, tts_engine.py:43-60), about to
execute the given control-thread calls. -/
def initSt (prog : List Call) (avail : Bool) : St :=
  ⟨⟨false, false, false, none, none, ⟨0, []⟩⟩, [], prog, 0, false, avail⟩

/-! ## Trace observables -/

/-- The worker thread that emits an event. -/
def evWorker : Ev → Nat
  | .started w => w
  | .chunkAdv w _ _ => w
  | .play w _ _ _ => w
  | .errEv w => w
  | .finished w => w

def isEvOfW (w : Nat) (e : Ev) : Bool := evWorker e == w

/-- Chunk activity of worker `w`: advancing to a chunk or playing its audio. -/
def isChunkEvOfW (w : Nat) : Ev → Bool
  | .chunkAdv w' _ _ => w' == w
  | .play w' _ _ _ => w' == w
  | _ => false

/-- Audio of request `r` starting to play. -/
def isPlayOfReq (r : Nat) : Ev → Bool
  | .play _ r' _ _ => r' == r
  | _ => false

/-- Does some event satisfying `p` occur strictly after the first event
satisfying `q`? -/
def evAfterFirstB (q p : Ev → Bool) : List Ev → Bool
  | [] => false
  | e :: tr => if q e then tr.any p else evAfterFirstB q p tr

/-- The chunk indices worker `w` advances to, in trace order. -/
def chunkIdxSeq (w : Nat) (tr : List Ev) : List Nat :=
  tr.filterMap fun e =>
    match e with
    | .chunkAdv w' _ i => if w' == w then some i else none
    | _ => none

/-- Is the list strictly increasing with all elements `≥ b`? -/
def strictIncrFrom (b : Nat) : List Nat → Bool
  | [] => true
  | a :: t => decide (b ≤ a) && strictIncrFrom (a + 1) t

/-- Worker `w` exists and has terminated (its thread function returned). -/
def wdoneB (st : St) (w : Nat) : Bool :=
  (st.workers[w]?).any fun ws => ws.pc == .done

/-- Worker `w` exists and is in the `finally` block or terminated: from here
it can emit at most its *finished* notification. -/
def wfinB (st : St) (w : Nat) : Bool :=
  (st.workers[w]?).any fun ws =>
    ws.pc == .fin1 || ws.pc == .fin2 || ws.pc == .fin3 || ws.pc == .fin4 || ws.pc == .done

/-- The *Idle* shared state of the claim on `stop()`: not speaking, not
paused, no active audio handle. -/
def idleSh (sh : Sh) : Bool :=
  !sh.isSpeaking && !sh.isPaused && sh.playObj == none

/-! ## Concrete scenarios for the counterexamples

`reqA` is a request whose text chunks into two sentences, each synthesised
as one audio segment; `reqB` chunks into one such sentence. -/

def reqA : Req := ⟨1, [some 1, some 1]⟩

def reqB : Req := ⟨2, [some 1]⟩

/-- Schedule refuting C1: `speak reqA` runs completely (12 control
statements), its worker 0 advances to chunk 0 and is then slow inside
synthesis (no steps).  `speak reqB` runs: its join times out after 1.0s
(`ctrlT`) with worker 0 still alive, `_should_stop` is reset to `False`,
worker 1 is spawned and plays reqB's first chunk.  Worker 0 then resumes,
reads the reset stop flag, and plays a reqA chunk. -/
def c1Sched : List Lab :=
  List.replicate 12 .ctrl ++ List.replicate 7 (.wk 0) ++
    (List.replicate 3 .ctrl ++ [.ctrlT] ++ List.replicate 8 .ctrl) ++
    List.replicate 12 (.wk 1) ++ List.replicate 5 (.wk 0)

/-- Schedule refuting C3: `speak ⟨1, [none, some 1]⟩` (first chunk's
synthesis raises), worker runs to completion. -/
def c3Sched : List Lab :=
  List.replicate 12 .ctrl ++ List.replicate 13 (.wk 0)

/-- Schedule refuting C4: worker 0 plays chunk 0's audio; `pause()` lands
while it is playing; the worker stops the audio and waits; `resume()`
lands; the worker runs to completion. -/
def c4Sched : List Lab :=
  List.replicate 12 .ctrl ++ List.replicate 12 (.wk 0) ++ List.replicate 2 .ctrl ++
    [.wk 0] ++ List.replicate 2 .ctrl ++ List.replicate 11 (.wk 0) ++ [.audioDone] ++
    List.replicate 7 (.wk 0)

/-- Schedule refuting C9: the worker finishes its audio naturally and is
about to run the `finally` block; `pause()` reads `_is_speaking == True`;
the worker's `finally` clears `_is_speaking`; `pause()` then sets
`_is_paused = True`. -/
def c9Sched : List Lab :=
  List.replicate 12 .ctrl ++ List.replicate 12 (.wk 0) ++ [.audioDone] ++
    List.replicate 3 (.wk 0) ++ [.ctrl, .wk 0, .ctrl]

/-- The locate policy in the words of the spec (§4.4): whitespace-normalised
case-insensitive substring search first from the read cursor forward, on
failure retried from offset 0; `some (start, end)` on success. -/
def locateSpecPolicy (pg : PageState) (text : List Char) (cursor : Nat) :
    Option (Nat × Nat) :=
  let sub := cleanText text
  let full := cleanText pg.fullText
  match pyFind full sub cursor with
  | some p => some (p, p + sub.length)
  | none =>
    match pyFind full sub 0 with
    | some p => some (p, p + sub.length)
    | none => none

/-- The page of the spec's locate scenario: spans `"Hello"`, `"world"`. -/
def pageHW : PageState :=
  setPage ⟨[], [], [], -1, -1, [], true⟩
    [⟨['H', 'e', 'l', 'l', 'o']⟩, ⟨['w', 'o', 'r', 'l', 'd']⟩]

def vHW : Viewer := ⟨pageHW, 0⟩

/-- A lower bound on the chunk index of any future `chunkAdv` event of
worker `w`: before the outer loop the first one is chunk 0; between the
loop head and the emission it is the current `i`; after the emission
(or termination) it is `i + 1`. -/
def nextChunkLB (st : St) (w : Nat) : Nat :=
  match st.workers[w]? with
  | none => 0
  | some ws =>
    match ws.pc with
    | .emitStarted => 0
    | .ensureReady => 0
    | .readText => 0
    | .chunkCheck => ws.i
    | .pauseWait1 => ws.i
    | .checkStop2 => ws.i
    | .emitChunk => ws.i
    | _ => ws.i + 1

/-- Invariant established by a completed `stop()` at the end of the control
program: the stop flag is set, the engine is idle, and no control call
remains; preserved by every further step of any thread. -/
def stopIdleInv (st : St) : Bool :=
  st.sh.shouldStop && idleSh st.sh && st.prog.isEmpty


/-- A state with worker 0 terminated, for the C1 witness. -/
def stDoneW : St :=
  ⟨⟨false, false, false, none, some 0, reqA⟩, [⟨.done, reqA, 2, 1⟩], [], 0, false, true⟩

/-- An arbitrary mid-playback state about to run `stop()`, for the C5 witness. -/
def stStopW : St :=
  ⟨⟨false, true, true, some ⟨1, 0, 0, true⟩, some 0, reqA⟩, [⟨.waitCheck, reqA, 0, 0⟩],
    [Call.stop], 0, false, true⟩

/-- A state whose worker is entering its `finally` block, for the C9 witness. -/
def stFinW : St :=
  ⟨⟨true, true, true, none, some 0, reqA⟩, [⟨.fin1, reqA, 1, 0⟩], [], 0, false, true⟩


/-! ## Whitespace well-formedness (for the chunker round-trip) -/

/-- No two adjacent whitespace characters. -/
def noDblB : List Char → Bool
  | [] => true
  | [_] => true
  | a :: b :: t => !(isPySpace a && isPySpace b) && noDblB (b :: t)

/-- Every whitespace character is a plain `' '`. -/
def allSpB (xs : List Char) : Bool := xs.all (fun c => !isPySpace c || c == ' ')

/-- The first character, if any, is not whitespace. -/
def headNotWs : List Char → Bool
  | [] => true
  | c :: _ => !isPySpace c

/-- The last character, if any, is not whitespace. -/
def lastNotWs (xs : List Char) : Bool := headNotWs xs.reverse

/-- The scan's current piece is empty or was last extended by whitespace:
the next character starts a fresh piece position. -/
def curNeeds : List Char → Bool
  | [] => true
  | c :: _ => isPySpace c

/-! ## Counterexample executions -/

/-- C1 fails on the code: with `speak reqA` active and its worker slow in
synthesis, `speak reqB`'s 1.0s join times out, `_should_stop` is reset,
and after reqB's first chunk has begun playing the old worker synthesises
and plays a reqA chunk; both workers are alive simultaneously at the end of
this schedule. -/
theorem c1_counterexample :
    (run (initSt [.speak reqA, .speak reqB] true) c1Sched).2 =
      [.started 0, .chunkAdv 0 1 0, .started 1, .chunkAdv 1 2 0,
        .play 1 2 0 0, .play 0 1 0 0] ∧
    evAfterFirstB (isPlayOfReq 2) (isPlayOfReq 1)
      (run (initSt [.speak reqA, .speak reqB] true) c1Sched).2 = true ∧
    (run (initSt [.speak reqA, .speak reqB] true) c1Sched).1.workers.countP
      (fun ws => !(ws.pc == .done)) = 2 := by
  decide

/-- C3 fails on the code: when chunk 0's synthesis raises, the single
`try` around the whole worker loop aborts the request — the worker never
advances to chunk 1; it emits the error and *finished* and exits. -/
theorem c3_counterexample :
    (run (initSt [.speak ⟨1, [none, some 1]⟩] true) c3Sched).2 =
      [.started 0, .chunkAdv 0 1 0, .errEv 0, .finished 0] ∧
    ((run (initSt [.speak ⟨1, [none, some 1]⟩] true) c3Sched).2.any
      (· == Ev.chunkAdv 0 1 1)) = false ∧
    wdoneB (run (initSt [.speak ⟨1, [none, some 1]⟩] true) c3Sched).1 0 = true := by
  decide

/-- C4 fails on the code: `pause()` lands while chunk 0's audio is playing
and `resume()` follows with no intervening stop, yet in the complete run
chunk 0 is advanced-to and played exactly once — it is never re-synthesised
from its beginning; the worker moves on to chunk 1 instead. -/
theorem c4_counterexample :
    (run (initSt [.speak reqA, .pause, .resume] true) c4Sched).2 =
      [.started 0, .chunkAdv 0 1 0, .play 0 1 0 0, .chunkAdv 0 1 1,
        .play 0 1 1 0, .finished 0] ∧
    (run (initSt [.speak reqA, .pause, .resume] true) c4Sched).2.countP
      (fun e => e == Ev.play 0 1 0 0 || e == Ev.chunkAdv 0 1 0) = 2 ∧
    wdoneB (run (initSt [.speak reqA, .pause, .resume] true) c4Sched).1 0 = true := by
  decide

/-- C9 fails on the code: `pause()`'s check-then-act is not atomic with the
worker's `finally` block, so a pause racing a natural worker exit leaves
`_is_paused = True` while `_is_speaking = False`. -/
theorem c9_counterexample :
    (run (initSt [.speak reqB, .pause] true) c9Sched).1.sh.isPaused = true ∧
    (run (initSt [.speak reqB, .pause] true) c9Sched).1.sh.isSpeaking = false := by
  decide

/-- C8 fails on the code for non-normalised input: on `"a  b"` the chunker
returns the single chunk `"a  b"` (internal whitespace untouched), whose
single-space join differs from the whitespace-normalised input `"a b"`. -/
theorem c8_counterexample :
    ¬ joinSp (splitIntoSentences ['a', ' ', ' ', 'b']) =
      normWs ['a', ' ', ' ', 'b'] := by
  decide

/-! ## C10: empty chunk clears the highlight -/

/-- C10: `highlight_text("")`, in any viewer state, restores selection
visibility, clears the TTS highlight (range `(-1,-1)`, no highlighted
spans), resets the read cursor to 0, and touches nothing else. -/
theorem c10_theorem (v : Viewer) :
    (highlightText v []).page.ttsCharStart = -1 ∧
    (highlightText v []).page.ttsCharEnd = -1 ∧
    (highlightText v []).page.ttsHighlightSpans = [] ∧
    (highlightText v []).page.showSel = true ∧
    (highlightText v []).currentReadPosition = 0 ∧
    (highlightText v []).page.spans = v.page.spans ∧
    (highlightText v []).page.spanCharRanges = v.page.spanCharRanges ∧
    (highlightText v []).page.fullText = v.page.fullText := by
  simp [highlightText, clearTtsHighlight, showSelection]

/-! ## C6: the locate / highlight policy -/

/-- C6: for a non-empty chunk, `highlight_text` realises exactly the spec's
locate policy (`locateSpecPolicy`): normalised case-insensitive search from
the read cursor, retried from 0; on success the highlight is set from the
matched range and the cursor advances to its end; on total failure the
previous highlight fields and the cursor are left unchanged (only the user
selection is hidden). -/
theorem c6_theorem (v : Viewer) (text : List Char) (h : text ≠ []) :
    match locateSpecPolicy v.page text v.currentReadPosition with
    | some se =>
        highlightText v text =
          { v with
            page := setTtsHighlightByPosition (hideSelection v.page) (se.1 : Int) (se.2 : Int)
            currentReadPosition := se.2 }
    | none => highlightText v text = { v with page := hideSelection v.page } := by
  have hne : text.isEmpty = false := by
    cases text with
    | nil => exact absurd rfl h
    | cons a t => rfl
  cases hf : pyFind (cleanText v.page.fullText) (cleanText text) v.currentReadPosition with
  | some p =>
    simp [locateSpecPolicy, highlightText, findTextPosition, hideSelection, hne, hf]
    omega
  | none =>
    cases hf0 : pyFind (cleanText v.page.fullText) (cleanText text) 0 with
    | some p =>
      simp [locateSpecPolicy, highlightText, findTextPosition, hideSelection, hne, hf, hf0]
      omega
    | none =>
      simp [locateSpecPolicy, highlightText, findTextPosition, hideSelection, hne, hf, hf0]

/-- Witness for `c6_theorem` at the concrete Hello/world page and chunk
`"hello"`. -/
theorem c6_witness :
    (['h', 'e', 'l', 'l', 'o'] : List Char) ≠ [] ∧
    (match locateSpecPolicy vHW.page ['h', 'e', 'l', 'l', 'o'] vHW.currentReadPosition with
     | some se =>
        highlightText vHW ['h', 'e', 'l', 'l', 'o'] =
          { vHW with
            page := setTtsHighlightByPosition (hideSelection vHW.page) (se.1 : Int) (se.2 : Int)
            currentReadPosition := se.2 }
     | none => highlightText vHW ['h', 'e', 'l', 'l', 'o'] = { vHW with page := hideSelection vHW.page }) :=
  ⟨by decide, c6_theorem vHW ['h', 'e', 'l', 'l', 'o'] (by decide)⟩

/-! ## C7: overlap translation of a located range -/

/-- Indexed filtering of an enumerated list, expressed positionally. -/
theorem enum_filter_map_fst {α : Type} (p : Nat → α → Bool) (l : List α) (n : Nat) :
    ((List.enumFrom n l).filter fun pr => p pr.1 pr.2).map Prod.fst =
      ((List.range l.length).filter fun i => (l[i]?).any fun a => p (i + n) a).map
        (· + n) := by
  induction l generalizing n with
  | nil => rfl
  | cons a t ih =>
    have hfun : ((fun x => x + n) ∘ Nat.succ) = fun x => x + (n + 1) := by
      funext x
      simp [Function.comp]
      omega
    have hpred : ((fun i => Option.any (fun a => p (i + n) a) ((a :: t)[i]?)) ∘ Nat.succ) =
        fun i => Option.any (fun a => p (i + (n + 1)) a) (t[i]?) := by
      funext i
      simp only [Function.comp, List.getElem?_cons_succ]
      have h2 : i + 1 + n = i + (n + 1) := by omega
      rw [h2]
    simp only [List.enumFrom, List.length_cons, List.range_succ_eq_map, List.filter_cons,
      List.filter_map, List.map_map, List.getElem?_cons_zero, Option.any_some, Nat.zero_add,
      hpred]
    by_cases hp : p n a
    · simp only [hp, if_true, List.map_cons]
      rw [List.map_map, hfun, ih (n + 1)]
      simp
    · simp only [hp, Bool.false_eq_true, if_false]
      rw [List.map_map, hfun, ih (n + 1)]

/-- C7: a successful locate highlights exactly the span indices whose
`[start, end)` ranges overlap the matched character range (overlap, not
containment), and the concrete Hello/world scenario: `"hello"` highlights
span 0 only; `"world"` from offset 0 highlights span 1 only; `"hello"`
from offset 6 (past span 0's end) falls back to offset 0 and highlights
span 0 again, leaving the cursor at 5. -/
theorem c7_theorem :
    (∀ (pg : PageState) (s e : Int), 0 ≤ s → 0 ≤ e →
      (setTtsHighlightByPosition pg s e).ttsHighlightSpans =
        (List.range pg.spanCharRanges.length).filter fun i =>
          (pg.spanCharRanges[i]?).any fun r =>
            decide ((r.1 : Int) < e) && decide ((r.2 : Int) > s)) ∧
    (highlightText vHW ['h', 'e', 'l', 'l', 'o']).page.ttsHighlightSpans = [0] ∧
    (highlightText vHW ['w', 'o', 'r', 'l', 'd']).page.ttsHighlightSpans = [1] ∧
    (highlightText { vHW with currentReadPosition := 6 }
      ['h', 'e', 'l', 'l', 'o']).page.ttsHighlightSpans = [0] ∧
    (highlightText { vHW with currentReadPosition := 6 }
      ['h', 'e', 'l', 'l', 'o']).currentReadPosition = 5 := by
  refine ⟨?_, by decide, by decide, by decide, by decide⟩
  intro pg s e hs he
  have hcond : (decide (s < 0) || decide (e < 0)) = false := by
    simp
    omega
  simp only [setTtsHighlightByPosition, hcond, if_false, Bool.false_eq_true, List.enum]
  rw [enum_filter_map_fst (fun _ r => decide ((r.1 : Int) < e) && decide ((r.2 : Int) > s))
    pg.spanCharRanges 0]
  simp

/-- Witness for `c7_theorem`'s quantified conjunct at the Hello/world page
with the range `[0, 5)`. -/
theorem c7_witness :
    (0 : Int) ≤ 0 ∧ (0 : Int) ≤ 5 ∧
    (setTtsHighlightByPosition pageHW 0 5).ttsHighlightSpans =
      (List.range pageHW.spanCharRanges.length).filter (fun i =>
        (pageHW.spanCharRanges[i]?).any fun r =>
          decide ((r.1 : Int) < 5) && decide ((r.2 : Int) > 0)) :=
  ⟨by decide, by decide, c7_theorem.1 pageHW 0 5 (by decide) (by decide)⟩

/-! ## Engine invariants and claim theorems -/

theorem step_ctrl_def (st : St) : step st .ctrl = (cstep false st, []) := rfl

theorem step_ctrlT_def (st : St) : step st .ctrlT = (cstep true st, []) := rfl

theorem step_wk_def (st : St) (w : Nat) :
    step st (.wk w) =
      match st.workers[w]? with
      | none => (st, [])
      | some ws =>
        ({ st with
            sh := (wstep st.synthAvailable w st.sh ws).1
            workers := st.workers.set w (wstep st.synthAvailable w st.sh ws).2.1 },
          (wstep st.synthAvailable w st.sh ws).2.2) := rfl

theorem step_audio_def (st : St) :
    step st .audioDone =
      match st.sh.playObj with
      | some p =>
        ({ st with sh := { st.sh with playObj := some { p with playing := false } } }, [])
      | none => (st, []) := rfl

theorem wstep_events_owner (avail : Bool) (w : Nat) (sh : Sh) (ws : WState) :
    ((wstep avail w sh ws).2.2).all (isEvOfW w) = true := by
  unfold wstep
  cases hpc : ws.pc <;> simp only [hpc] <;>
    (try split) <;> (try split) <;> (try split) <;> (try split) <;>
    simp [isEvOfW, evWorker]

theorem wstep_done (avail : Bool) (w : Nat) (sh : Sh) (ws : WState) (h : ws.pc = .done) :
    wstep avail w sh ws = (sh, ws, []) := by
  unfold wstep
  rw [h]

theorem step_events_wk (st : St) (w : Nat) :
    ((step st (.wk w)).2).all (isEvOfW w) = true := by
  rw [step_wk_def]
  cases hg : st.workers[w]? with
  | none => rfl
  | some ws => exact wstep_events_owner st.synthAvailable w st.sh ws

theorem step_events_audio (st : St) : (step st .audioDone).2 = [] := by
  rw [step_audio_def]
  cases st.sh.playObj <;> rfl

theorem step_audio_workers (st : St) : (step st .audioDone).1.workers = st.workers := by
  rw [step_audio_def]
  cases st.sh.playObj <;> rfl

theorem step_audio_prog (st : St) : (step st .audioDone).1.prog = st.prog := by
  rw [step_audio_def]
  cases st.sh.playObj <;> rfl

theorem cstep_workers (f : Bool) (st : St) :
    (cstep f st).workers = st.workers ∨
      (cstep f st).workers = st.workers ++ [⟨.emitStarted, ⟨0, []⟩, 0, 0⟩] := by
  unfold cstep fullStopStep ctrlNext
  (try split) <;> (try split) <;> (try split) <;> (try split) <;> (try split) <;>
    (try split) <;> simp

theorem cstep_nil (f : Bool) (st : St) (h : st.prog = []) : cstep f st = st := by
  unfold cstep
  rw [h]


theorem step_events_ctrl (st : St) : (step st .ctrl).2 = [] := rfl

theorem step_events_ctrlT (st : St) : (step st .ctrlT).2 = [] := rfl

theorem all_not_of_all_other {w w' : Nat} (hne : w' ≠ w) (E : List Ev)
    (h : E.all (isEvOfW w') = true) : E.all (fun e => !isEvOfW w e) = true := by
  rw [List.all_eq_true] at h ⊢
  intro e he
  have h1 := h e he
  simp only [isEvOfW, beq_iff_eq] at h1 ⊢
  simp [h1, hne]

theorem wdoneB_cstep (f : Bool) (st : St) (w : Nat) (h : wdoneB st w = true) :
    wdoneB (cstep f st) w = true := by
  unfold wdoneB at h ⊢
  rcases cstep_workers f st with hw | hw <;> rw [hw]
  · exact h
  · cases hg : st.workers[w]? with
    | none => rw [hg] at h; simp at h
    | some ws =>
      rw [hg] at h
      have hlt : w < st.workers.length := by
        rcases List.getElem?_eq_some.mp hg with ⟨h1, _⟩
        exact h1
      rw [List.getElem?_append_left hlt, hg]
      exact h

theorem step_done_inv (st : St) (l : Lab) (w : Nat) (h : wdoneB st w = true) :
    wdoneB (step st l).1 w = true ∧
      ((step st l).2).all (fun e => !isEvOfW w e) = true := by
  cases l with
  | ctrl => exact ⟨wdoneB_cstep false st w h, by rw [step_events_ctrl]; rfl⟩
  | ctrlT => exact ⟨wdoneB_cstep true st w h, by rw [step_events_ctrlT]; rfl⟩
  | audioDone =>
    refine ⟨?_, by rw [step_events_audio]; rfl⟩
    unfold wdoneB
    rw [step_audio_workers]
    exact h
  | wk w' =>
    rw [step_wk_def]
    cases hg : st.workers[w']? with
    | none => exact ⟨h, rfl⟩
    | some ws =>
      dsimp only
      by_cases hww : w' = w
      · subst hww
        unfold wdoneB at h
        rw [hg] at h
        simp only [Option.any_some, beq_iff_eq] at h
        rw [wstep_done st.synthAvailable w' st.sh ws h]
        constructor
        · unfold wdoneB
          simp only [List.getElem?_set_self']
          rw [hg]
          simp [h]
        · rfl
      · constructor
        · unfold wdoneB at h ⊢
          simp only [List.getElem?_set_ne hww]
          exact h
        · have := step_events_wk st w'
          rw [step_wk_def, hg] at this
          exact all_not_of_all_other hww _ this

theorem run_done_inv (ls : List Lab) : ∀ (st : St) (w : Nat), wdoneB st w = true →
    wdoneB (run st ls).1 w = true ∧
      ((run st ls).2).all (fun e => !isEvOfW w e) = true := by
  induction ls with
  | nil => intro st w h; exact ⟨h, rfl⟩
  | cons l ls ih =>
    intro st w h
    have h1 := step_done_inv st l w h
    have h2 := ih (step st l).1 w h1.1
    refine ⟨h2.1, ?_⟩
    simp only [run, List.all_append]
    rw [h1.2, h2.2]
    rfl


theorem all_notchunk_of_all_other {w w' : Nat} (hne : w' ≠ w) (E : List Ev)
    (h : E.all (isEvOfW w') = true) : E.all (fun e => !isChunkEvOfW w e) = true := by
  rw [List.all_eq_true] at h ⊢
  intro e he
  have h1 := h e he
  cases e <;> simp [isChunkEvOfW, isEvOfW, evWorker] at h1 ⊢ <;> omega

theorem workers_any_cstep (p : WState → Bool)
    (f : Bool) (st : St) (w : Nat) (h : (st.workers[w]?).any p = true) :
    ((cstep f st).workers[w]?).any p = true := by
  rcases cstep_workers f st with hw | hw <;> rw [hw]
  · exact h
  · cases hg : st.workers[w]? with
    | none => rw [hg] at h; simp at h
    | some ws =>
      rw [hg] at h
      have hlt : w < st.workers.length := by
        rcases List.getElem?_eq_some.mp hg with ⟨h1, _⟩
        exact h1
      rw [List.getElem?_append_left hlt, hg]
      exact h

theorem step_fin_inv (st : St) (l : Lab) (w : Nat) (h : wfinB st w = true) :
    wfinB (step st l).1 w = true ∧
      ((step st l).2).all (fun e => !isChunkEvOfW w e) = true := by
  cases l with
  | ctrl => exact ⟨workers_any_cstep _ false st w h, by rw [step_events_ctrl]; rfl⟩
  | ctrlT => exact ⟨workers_any_cstep _ true st w h, by rw [step_events_ctrlT]; rfl⟩
  | audioDone =>
    refine ⟨?_, by rw [step_events_audio]; rfl⟩
    unfold wfinB
    rw [step_audio_workers]
    exact h
  | wk w' =>
    rw [step_wk_def]
    cases hg : st.workers[w']? with
    | none => exact ⟨h, rfl⟩
    | some ws =>
      dsimp only
      by_cases hww : w' = w
      · subst hww
        unfold wfinB at h
        rw [hg] at h
        simp only [Option.any_some] at h
        cases hpc : ws.pc <;> rw [hpc] at h <;>
          try (exact absurd h (by decide))
        all_goals
          refine ⟨?_, ?_⟩ <;>
            simp [wstep, hpc, wfinB, List.getElem?_set_self', hg, isChunkEvOfW]
      · constructor
        · unfold wfinB at h ⊢
          simp only [List.getElem?_set_ne hww]
          exact h
        · have h2 := step_events_wk st w'
          rw [step_wk_def, hg] at h2
          exact all_notchunk_of_all_other hww _ h2


theorem wstep_shape (avail : Bool) (w : Nat) (sh : Sh) (ws : WState) :
    (wstep avail w sh ws).2.2 = [] ∨
    (∃ r i, (wstep avail w sh ws).2.2 = [Ev.chunkAdv w r i]) ∨
    (∃ r i j, (wstep avail w sh ws).2.2 = [Ev.play w r i j]) ∨
    (wstep avail w sh ws).2.2 = [Ev.started w] ∨
    (wstep avail w sh ws).2.2 = [Ev.finished w] ∨
    ((wstep avail w sh ws).2.2 = [Ev.errEv w] ∧ (wstep avail w sh ws).2.1.pc = .fin1) := by
  cases hpc : ws.pc <;> simp only [wstep, hpc] <;>
    (try split) <;> (try split) <;> (try split) <;> (try split) <;> simp

theorem step_shape (st : St) (l : Lab) :
    (step st l).2 = [] ∨ ∃ e, (step st l).2 = [e] := by
  cases l with
  | ctrl => exact Or.inl (step_events_ctrl st)
  | ctrlT => exact Or.inl (step_events_ctrlT st)
  | audioDone => exact Or.inl (step_events_audio st)
  | wk w =>
    rw [step_wk_def]
    cases hg : st.workers[w]? with
    | none => exact Or.inl rfl
    | some ws =>
      dsimp only
      rcases wstep_shape st.synthAvailable w st.sh ws with hE | ⟨r, i, hE⟩ | ⟨r, i, j, hE⟩ | hE | hE | ⟨hE, _⟩ <;>
        rw [hE]
      · exact Or.inl rfl
      all_goals exact Or.inr ⟨_, rfl⟩

theorem any_eq_false_of_all_not {p : Ev → Bool} {E : List Ev}
    (h : E.all (fun e => !p e) = true) : E.any p = false := by
  rw [List.all_eq_true] at h
  rw [List.any_eq_false]
  intro e he
  have h2 := h e he
  simp at h2
  simp [h2]

theorem step_err_to_fin (st : St) (l : Lab) (w : Nat)
    (h : ((step st l).2).any (· == Ev.errEv w) = true) :
    wfinB (step st l).1 w = true := by
  cases l with
  | ctrl => rw [step_events_ctrl] at h; simp at h
  | ctrlT => rw [step_events_ctrlT] at h; simp at h
  | audioDone => rw [step_events_audio] at h; simp at h
  | wk w' =>
    rw [step_wk_def] at h ⊢
    cases hg : st.workers[w']? with
    | none =>
      rw [hg] at h
      simp at h
    | some ws =>
      rw [hg] at h
      dsimp only at h ⊢
      rcases wstep_shape st.synthAvailable w' st.sh ws with hE | ⟨r, i, hE⟩ | ⟨r, i, j, hE⟩ | hE | hE | ⟨hE, hpc⟩ <;>
        rw [hE] at h <;> simp at h
      subst h
      unfold wfinB
      simp [List.getElem?_set_self', hg, hpc]

theorem run_fin_inv (ls : List Lab) : ∀ (st : St) (w : Nat), wfinB st w = true →
    wfinB (run st ls).1 w = true ∧
      ((run st ls).2).all (fun e => !isChunkEvOfW w e) = true := by
  induction ls with
  | nil => intro st w h; exact ⟨h, rfl⟩
  | cons l ls ih =>
    intro st w h
    have h1 := step_fin_inv st l w h
    have h2 := ih (step st l).1 w h1.1
    refine ⟨h2.1, ?_⟩
    simp only [run, List.all_append]
    rw [h1.2, h2.2]
    rfl

theorem run_no_chunk_after_err (sched : List Lab) : ∀ (st : St) (w : Nat),
    evAfterFirstB (· == Ev.errEv w) (isChunkEvOfW w) (run st sched).2 = false := by
  induction sched with
  | nil => intro st w; rfl
  | cons l ls ih =>
    intro st w
    simp only [run]
    rcases step_shape st l with hE | ⟨e, hE⟩
    · rw [hE]
      simpa using ih (step st l).1 w
    · rw [hE]
      show evAfterFirstB (· == Ev.errEv w) (isChunkEvOfW w)
        (e :: (run (step st l).1 ls).2) = false
      simp only [evAfterFirstB]
      by_cases he : (e == Ev.errEv w) = true
      · rw [if_pos he]
        have hfin := step_err_to_fin st l w (by rw [hE]; simp [he])
        exact any_eq_false_of_all_not (run_fin_inv ls (step st l).1 w hfin).2
      · rw [if_neg he]
        exact ih (step st l).1 w


theorem countP_fin_zero_of_other {w w' : Nat} (hne : w' ≠ w) (E : List Ev)
    (h : E.all (isEvOfW w') = true) : E.countP (· == Ev.finished w) = 0 := by
  rw [List.countP_eq_zero]
  intro e he
  have h1 : isEvOfW w' e = true := List.all_eq_true.mp h e he
  intro hc
  have : e = Ev.finished w := by simpa using hc
  subst this
  simp [isEvOfW, evWorker] at h1
  exact hne h1.symm

theorem countP_fin_zero_of_not_w {w : Nat} (E : List Ev)
    (h : E.all (fun e => !isEvOfW w e) = true) : E.countP (· == Ev.finished w) = 0 := by
  rw [List.countP_eq_zero]
  intro e he
  have h1 := List.all_eq_true.mp h e he
  intro hc
  have : e = Ev.finished w := by simpa using hc
  subst this
  simp [isEvOfW, evWorker] at h1

theorem wdoneB_cstep_false (f : Bool) (st : St) (w : Nat) (h : wdoneB st w = false) :
    wdoneB (cstep f st) w = false := by
  unfold wdoneB at h ⊢
  rcases cstep_workers f st with hw | hw <;> rw [hw]
  · exact h
  · cases hg : st.workers[w]? with
    | some ws =>
      have hlt : w < st.workers.length := (List.getElem?_eq_some.mp hg).1
      rw [List.getElem?_append_left hlt, hg]
      rw [hg] at h
      exact h
    | none =>
      have hge : st.workers.length ≤ w := by
        by_contra hlt
        push_neg at hlt
        rw [List.getElem?_eq_some.mpr ⟨hlt, rfl⟩] at hg
        exact Option.noConfusion hg
      rw [List.getElem?_append]
      rw [if_neg (by omega)]
      by_cases hk : w - st.workers.length = 0
      · rw [hk]
        decide
      · rw [List.getElem?_eq_none_iff.mpr (by simp; omega)]
        rfl

theorem step_fincnt (st : St) (l : Lab) (w : Nat) (h : wdoneB st w = false) :
    ((step st l).2).countP (· == Ev.finished w) =
      (if wdoneB (step st l).1 w = true then 1 else 0) := by
  cases l with
  | ctrl =>
    rw [step_events_ctrl, step_ctrl_def]
    simp [wdoneB_cstep_false false st w h]
  | ctrlT =>
    rw [step_events_ctrlT, step_ctrlT_def]
    simp [wdoneB_cstep_false true st w h]
  | audioDone =>
    rw [step_events_audio]
    have h2 : wdoneB (step st .audioDone).1 w = false := by
      unfold wdoneB
      rw [step_audio_workers]
      exact h
    simp [h2]
  | wk w' =>
    rw [step_wk_def]
    cases hg : st.workers[w']? with
    | none =>
      dsimp only
      simp [h]
    | some ws =>
      dsimp only
      by_cases hww : w' = w
      · subst hww
        unfold wdoneB at h
        rw [hg] at h
        simp only [Option.any_some] at h
        cases hpc : ws.pc
        all_goals try (rw [hpc] at h; exact absurd h (by decide))
        all_goals
          simp only [wstep, hpc] <;> (try split) <;> (try split) <;> (try split) <;>
            (try split) <;>
            simp_all [wdoneB, List.getElem?_set_self', hg]
      · have htag := step_events_wk st w'
        rw [step_wk_def, hg] at htag
        have hcnt := countP_fin_zero_of_other hww _ htag
        have h2 : wdoneB ({ st with
            sh := (wstep st.synthAvailable w' st.sh ws).1
            workers := st.workers.set w' (wstep st.synthAvailable w' st.sh ws).2.1 } : St) w = false := by
          unfold wdoneB at h ⊢
          simp only [List.getElem?_set_ne hww]
          exact h
        rw [hcnt, h2]
        rfl


theorem run_fincnt (ls : List Lab) : ∀ (st : St) (w : Nat), wdoneB st w = false →
    (run st ls).2.countP (· == Ev.finished w) =
      (if wdoneB (run st ls).1 w = true then 1 else 0) := by
  induction ls with
  | nil =>
    intro st w h
    simp [run, h]
  | cons l ls ih =>
    intro st w h
    simp only [run, List.countP_append]
    by_cases hd : wdoneB (step st l).1 w = true
    · have hstep := step_fincnt st l w h
      rw [hd] at hstep
      simp only [if_true] at hstep
      have hrest := run_done_inv ls (step st l).1 w hd
      rw [hstep, countP_fin_zero_of_not_w _ hrest.2]
      simp [hrest.1]
    · have hstep := step_fincnt st l w h
      rw [if_neg hd] at hstep
      rw [hstep, ih (step st l).1 w (by simpa using hd)]
      simp

theorem stopIdle_wstep (avail : Bool) (w : Nat) (sh : Sh) (ws : WState)
    (h1 : sh.shouldStop = true) (h2 : sh.isPaused = false) (h3 : sh.isSpeaking = false)
    (h4 : sh.playObj = none) :
    (wstep avail w sh ws).1.shouldStop = true ∧ (wstep avail w sh ws).1.isPaused = false ∧
      (wstep avail w sh ws).1.isSpeaking = false ∧ (wstep avail w sh ws).1.playObj = none := by
  cases hpc : ws.pc <;> simp only [wstep, hpc] <;>
    (try split) <;> (try split) <;> (try split) <;> (try split) <;>
    simp_all

theorem stopIdle_step (st : St) (l : Lab) (h : stopIdleInv st = true) :
    stopIdleInv (step st l).1 = true := by
  have hh := h
  unfold stopIdleInv idleSh at hh
  simp only [Bool.and_eq_true, Bool.not_eq_true', beq_iff_eq, List.isEmpty_iff] at hh
  obtain ⟨⟨hss, ⟨⟨hsp, hpa⟩, hpo⟩⟩, hpr⟩ := hh
  cases l with
  | ctrl =>
    rw [step_ctrl_def]
    rw [cstep_nil false st hpr]
    exact h
  | ctrlT =>
    rw [step_ctrlT_def]
    rw [cstep_nil true st hpr]
    exact h
  | audioDone =>
    rw [step_audio_def]
    rw [hpo]
    exact h
  | wk w =>
    rw [step_wk_def]
    cases hg : st.workers[w]? with
    | none => exact h
    | some ws =>
      dsimp only
      have hw := stopIdle_wstep st.synthAvailable w st.sh ws hss hpa hsp hpo
      unfold stopIdleInv idleSh
      simp only [Bool.and_eq_true, Bool.not_eq_true', beq_iff_eq, List.isEmpty_iff]
      exact ⟨⟨hw.1, ⟨⟨hw.2.2.1, hw.2.1⟩, hw.2.2.2⟩⟩, hpr⟩

theorem run_stopIdle (ls : List Lab) : ∀ (st : St), stopIdleInv st = true →
    stopIdleInv (run st ls).1 = true := by
  induction ls with
  | nil => intro st h; exact h
  | cons l ls ih => intro st h; exact ih (step st l).1 (stopIdle_step st l h)


theorem chunkIdxSeq_nil_of_other {w w' : Nat} (hne : w' ≠ w) (E : List Ev)
    (h : E.all (isEvOfW w') = true) : chunkIdxSeq w E = [] := by
  unfold chunkIdxSeq
  rw [List.filterMap_eq_nil]
  intro e he
  have h1 := List.all_eq_true.mp h e he
  cases e <;> simp [isEvOfW, evWorker] at h1 ⊢ <;> omega

theorem nextChunkLB_cstep_le (f : Bool) (st : St) (w : Nat) :
    nextChunkLB st w ≤ nextChunkLB (cstep f st) w := by
  rcases cstep_workers f st with hw | hw
  · unfold nextChunkLB
    rw [hw]
  · cases hg : st.workers[w]? with
    | some ws =>
      have hlt : w < st.workers.length := (List.getElem?_eq_some.mp hg).1
      unfold nextChunkLB
      rw [hw, List.getElem?_append_left hlt]
    | none =>
      unfold nextChunkLB
      rw [hg]
      exact Nat.zero_le _

theorem step_chunkLB (st : St) (l : Lab) (w : Nat) :
    (chunkIdxSeq w (step st l).2 = [] ∧ nextChunkLB st w ≤ nextChunkLB (step st l).1 w) ∨
    (chunkIdxSeq w (step st l).2 = [nextChunkLB st w] ∧
      nextChunkLB (step st l).1 w = nextChunkLB st w + 1) := by
  cases l with
  | ctrl =>
    refine Or.inl ⟨by rw [step_events_ctrl]; rfl, ?_⟩
    rw [step_ctrl_def]
    exact nextChunkLB_cstep_le false st w
  | ctrlT =>
    refine Or.inl ⟨by rw [step_events_ctrlT]; rfl, ?_⟩
    rw [step_ctrlT_def]
    exact nextChunkLB_cstep_le true st w
  | audioDone =>
    refine Or.inl ⟨by rw [step_events_audio]; rfl, ?_⟩
    unfold nextChunkLB
    rw [step_audio_workers]
  | wk w' =>
    rw [step_wk_def]
    cases hg : st.workers[w']? with
    | none => exact Or.inl ⟨rfl, Nat.le_refl _⟩
    | some ws =>
      dsimp only
      by_cases hww : w' = w
      · subst hww
        cases hpc : ws.pc <;>
          simp only [wstep, hpc] <;>
          (try split) <;> (try split) <;> (try split) <;> (try split) <;>
          simp [chunkIdxSeq, nextChunkLB, List.getElem?_set_self', hg, hpc, isChunkEvOfW] <;>
          omega
      · refine Or.inl ⟨?_, ?_⟩
        · have htag := step_events_wk st w'
          rw [step_wk_def, hg] at htag
          exact chunkIdxSeq_nil_of_other hww _ htag
        · unfold nextChunkLB
          simp only [List.getElem?_set_ne hww]
          exact Nat.le_refl _

theorem strictIncrFrom_mono {b b' : Nat} (h : b ≤ b') :
    ∀ l, strictIncrFrom b' l = true → strictIncrFrom b l = true := by
  intro l
  cases l with
  | nil => intro _; rfl
  | cons a t =>
    intro hl
    simp only [strictIncrFrom, Bool.and_eq_true, decide_eq_true_eq] at hl ⊢
    exact ⟨by omega, hl.2⟩

theorem run_chunkLB (ls : List Lab) : ∀ (st : St) (w : Nat),
    strictIncrFrom (nextChunkLB st w) (chunkIdxSeq w (run st ls).2) = true := by
  induction ls with
  | nil => intro st w; rfl
  | cons l ls ih =>
    intro st w
    simp only [run, chunkIdxSeq, List.filterMap_append]
    rcases step_chunkLB st l w with ⟨hE, hle⟩ | ⟨hE, heq⟩
    · unfold chunkIdxSeq at hE
      rw [hE, List.nil_append]
      exact strictIncrFrom_mono hle _ (ih (step st l).1 w)
    · unfold chunkIdxSeq at hE
      rw [hE, List.cons_append, List.nil_append]
      simp only [strictIncrFrom, Bool.and_eq_true, decide_eq_true_eq]
      refine ⟨Nat.le_refl _, ?_⟩
      rw [← heq]
      exact ih (step st l).1 w


theorem stop_run6 (st : St) (h1 : st.prog = [Call.stop]) (h2 : st.cpc = 0) :
    stopIdleInv (run st (List.replicate 6 Lab.ctrlT)).1 = true := by
  obtain ⟨⟨ss, ip, isp, po, tr, tx⟩, workers, prog, cpc, creg, avail⟩ := st
  simp only at h1 h2
  subst h1 h2
  cases tr <;>
    simp [run, step, cstep, fullStopStep, ctrlNext, stopIdleInv, idleSh, List.replicate]

theorem pause_noop (st : St) (rest : List Call) (h1 : st.prog = Call.pause :: rest)
    (h2 : st.cpc = 0) (h3 : st.sh.isSpeaking = false) :
    (run st [Lab.ctrl, Lab.ctrl]).1.sh = st.sh ∧
    (run st [Lab.ctrl, Lab.ctrl]).1.workers = st.workers ∧
    (run st [Lab.ctrl, Lab.ctrl]).1.prog = rest := by
  obtain ⟨⟨ss, ip, isp, po, tr, tx⟩, workers, prog, cpc, creg, avail⟩ := st
  simp only at h1 h2 h3
  subst h1 h2 h3
  simp [run, step, cstep, ctrlNext]

theorem finexit_clears (st : St) (w : Nat) (ws : WState)
    (hg : st.workers[w]? = some ws) (hpc : ws.pc = .fin1) :
    (run st [Lab.wk w, Lab.wk w]).1.sh.isSpeaking = false ∧
    (run st [Lab.wk w, Lab.wk w]).1.sh.isPaused = false := by
  simp [run, step_wk_def, hg, wstep, hpc, List.getElem?_set_self']


theorem idleSh_of_stopIdleInv {st : St} (h : stopIdleInv st = true) : idleSh st.sh = true := by
  unfold stopIdleInv at h
  simp only [Bool.and_eq_true] at h
  exact h.1.2

/-- C1 (amended): a worker thread that has terminated takes no further
steps and emits no further events; hence whenever `speak(text2)`'s bounded
join actually observes the prior worker's exit, no audio of text1 is
synthesised or played afterwards.  (When the 1.0s join times out instead,
the stop-flag reset revives the prior worker: see `c1_counterexample`.) -/
theorem c1_theorem (st : St) (sched : List Lab) (w : Nat) (h : wdoneB st w = true) :
    ((run st sched).2).all (fun e => !isEvOfW w e) = true :=
  (run_done_inv sched st w h).2

/-- Witness for `c1_theorem` at a concrete terminated-worker state. -/
theorem c1_witness :
    wdoneB stDoneW 0 = true ∧
    ((run stDoneW [.wk 0, .audioDone, .ctrl, .wk 0]).2).all (fun e => !isEvOfW 0 e) = true :=
  ⟨by decide, c1_theorem stDoneW [.wk 0, .audioDone, .ctrl, .wk 0] 0 (by decide)⟩

/-- C2: in every execution from the initial engine state, each worker
thread emits the *speech finished* notification exactly once per completed
lifetime — the count of its *finished* events is 1 exactly when it has
reached the end of `_speak_thread` (through natural end-of-chunks, error,
synthesizer-unavailable, or stop — every exit path runs the one `finally`
block, and every raise inside the loop is caught by the `except` arm), and
0 while it is still running or was never spawned. -/
theorem c2_theorem (prog : List Call) (avail : Bool) (sched : List Lab) (w : Nat) :
    (run (initSt prog avail) sched).2.countP (· == Ev.finished w) =
      (if wdoneB (run (initSt prog avail) sched).1 w = true then 1 else 0) :=
  run_fincnt sched (initSt prog avail) w (by simp [wdoneB, initSt])

/-- C3 (amended): after a worker emits the error notification, it never
synthesises or plays any further chunk: a chunk synthesis failure aborts
the remainder of the request (the single `try` wraps the whole loop), the
worker exits cleanly through `finally`, and the controller flags are
cleared — rather than advancing to the next chunk. -/
theorem c3_theorem (st : St) (sched : List Lab) (w : Nat) :
    evAfterFirstB (· == Ev.errEv w) (isChunkEvOfW w) (run st sched).2 = false :=
  run_no_chunk_after_err sched st w

/-- C4 (amended): a worker's chunk indices are strictly increasing: no
chunk is ever advanced to twice, so a chunk interrupted by `pause()` is
never re-synthesised from its beginning — after `resume()` the worker
moves past the halted audio segment to the following segment or chunk
(see `c4_counterexample` for the concrete pause-mid-playback run). -/
theorem c4_theorem (st : St) (sched : List Lab) (w : Nat) :
    strictIncrFrom 0 (chunkIdxSeq w (run st sched).2) = true :=
  strictIncrFrom_mono (Nat.zero_le _) _ (run_chunkLB sched st w)

/-- C5: `stop()` from any state completes within its six bounded control
statements (the `join(timeout=1.0)` can always proceed when the timeout
elapses, so the caller never hangs), leaves the engine Idle — not
speaking, not paused, no audio handle — at completion and at every later
point, and every worker emits at most one *finished* notification (exactly
one per completed lifetime, by `c2_theorem`'s helper). -/
theorem c5_theorem :
    (∀ (st : St) (sched : List Lab), st.prog = [Call.stop] → st.cpc = 0 →
      idleSh (run st (List.replicate 6 Lab.ctrlT)).1.sh = true ∧
      idleSh (run (run st (List.replicate 6 Lab.ctrlT)).1 sched).1.sh = true) ∧
    (∀ (prog : List Call) (avail : Bool) (sched : List Lab) (w : Nat),
      (run (initSt prog avail) sched).2.countP (· == Ev.finished w) ≤ 1) := by
  constructor
  · intro st sched h1 h2
    have h6 := stop_run6 st h1 h2
    exact ⟨idleSh_of_stopIdleInv h6,
      idleSh_of_stopIdleInv (run_stopIdle sched _ h6)⟩
  · intro prog avail sched w
    rw [run_fincnt sched (initSt prog avail) w (by simp [wdoneB, initSt])]
    split <;> omega

/-- Witness for `c5_theorem`'s first conjunct at a concrete mid-playback
state. -/
theorem c5_witness :
    stStopW.prog = [Call.stop] ∧ stStopW.cpc = 0 ∧
    (idleSh (run stStopW (List.replicate 6 Lab.ctrlT)).1.sh = true ∧
      idleSh (run (run stStopW (List.replicate 6 Lab.ctrlT)).1 [.wk 0, .wk 0, .audioDone]).1.sh = true) :=
  ⟨by decide, by decide,
    c5_theorem.1 stStopW [.wk 0, .wk 0, .audioDone] (by decide) (by decide)⟩

/-- C9 (amended): `pause()` invoked when the speaking flag is unset leaves
the engine state unchanged; the worker's exit sequence clears the
speaking flag and then the paused flag, and a completed `stop()` clears
both.  The claim's final invariant — paused never observed true while
speaking is false — does not hold: the two `finally` assignments and
`pause()`'s check-then-act are not atomic (see `c9_counterexample`). -/
theorem c9_theorem :
    (∀ (st : St) (rest : List Call), st.prog = Call.pause :: rest → st.cpc = 0 →
      st.sh.isSpeaking = false →
      (run st [Lab.ctrl, Lab.ctrl]).1.sh = st.sh ∧
      (run st [Lab.ctrl, Lab.ctrl]).1.workers = st.workers ∧
      (run st [Lab.ctrl, Lab.ctrl]).1.prog = rest) ∧
    (∀ (st : St) (w : Nat) (ws : WState), st.workers[w]? = some ws → ws.pc = .fin1 →
      (run st [Lab.wk w, Lab.wk w]).1.sh.isSpeaking = false ∧
      (run st [Lab.wk w, Lab.wk w]).1.sh.isPaused = false) ∧
    (∀ (st : St), st.prog = [Call.stop] → st.cpc = 0 →
      (run st (List.replicate 6 Lab.ctrlT)).1.sh.isSpeaking = false ∧
      (run st (List.replicate 6 Lab.ctrlT)).1.sh.isPaused = false) := by
  refine ⟨pause_noop, finexit_clears, ?_⟩
  intro st h1 h2
  have hi := idleSh_of_stopIdleInv (stop_run6 st h1 h2)
  unfold idleSh at hi
  simp only [Bool.and_eq_true, Bool.not_eq_true'] at hi
  exact ⟨hi.1.1, hi.1.2⟩

/-- Witness for `c9_theorem`'s worker-exit conjunct at a concrete state. -/
theorem c9_witness :
    stFinW.workers[0]? = some ⟨.fin1, reqA, 1, 0⟩ ∧
    (⟨.fin1, reqA, 1, 0⟩ : WState).pc = .fin1 ∧
    ((run stFinW [Lab.wk 0, Lab.wk 0]).1.sh.isSpeaking = false ∧
      (run stFinW [Lab.wk 0, Lab.wk 0]).1.sh.isPaused = false) :=
  ⟨by decide, by decide, c9_theorem.2.1 stFinW 0 ⟨.fin1, reqA, 1, 0⟩ (by decide) (by decide)⟩

/-! ## C8: the chunker round-trip -/






theorem noDbl_cons (a : Char) (l : List Char) :
    noDblB (a :: l) =
      ((match l.head? with
        | none => true
        | some b => !(isPySpace a && isPySpace b)) && noDblB l) := by
  cases l <;> simp [noDblB]

theorem noDbl_tail {a : Char} {l : List Char} (h : noDblB (a :: l) = true) :
    noDblB l = true := by
  rw [noDbl_cons, Bool.and_eq_true] at h
  exact h.2

theorem headNotWs_append (l : List Char) (a : Char) :
    headNotWs (l ++ [a]) = (if l = [] then !isPySpace a else headNotWs l) := by
  cases l <;> simp [headNotWs]

theorem collapse_allSp : ∀ (xs : List Char), allSpB (collapseWs xs) = true
  | [] => by simp [collapseWs, allSpB]
  | [c] => by
    by_cases h : isPySpace c = true <;> simp [collapseWs, h, allSpB]
  | c :: d :: cs => by
    have ih := collapse_allSp (d :: cs)
    by_cases h : (isPySpace c && isPySpace d) = true
    · simp only [collapseWs, h, if_true]
      exact ih
    · simp only [collapseWs, h, Bool.false_eq_true, if_false, allSpB, List.all_cons] at ih ⊢
      rw [ih]
      by_cases hc : isPySpace c = true <;> simp [hc]

theorem collapse_cons_head (d : Char) (cs : List Char) (h : isPySpace d = false) :
    ∃ t, collapseWs (d :: cs) = d :: t := by
  cases cs with
  | nil => exact ⟨[], by simp [collapseWs, h]⟩
  | cons e cs' =>
    refine ⟨collapseWs (e :: cs'), ?_⟩
    simp [collapseWs, h]

theorem collapse_noDbl : ∀ (xs : List Char), noDblB (collapseWs xs) = true
  | [] => by simp [collapseWs, noDblB]
  | [c] => by by_cases h : isPySpace c = true <;> simp [collapseWs, h, noDblB]
  | c :: d :: cs => by
    have ih := collapse_noDbl (d :: cs)
    by_cases h : (isPySpace c && isPySpace d) = true
    · simp only [collapseWs, h, if_true]
      exact ih
    · simp only [collapseWs, h, Bool.false_eq_true, if_false]
      by_cases hc : isPySpace c = true
      · have hd : isPySpace d = false := by
          cases hdd : isPySpace d
          · rfl
          · exact absurd (by rw [hc, hdd]; rfl) h
        obtain ⟨t, ht⟩ := collapse_cons_head d cs hd
        rw [ht, noDbl_cons]
        rw [ht] at ih
        simp [hc, hd, ih, noDblB]
      · rw [noDbl_cons]
        simp only [Bool.not_eq_true] at hc
        cases hh : (collapseWs (d :: cs)).head? <;> simp [hc, ih]


theorem collapse_headNotWs : ∀ (xs : List Char), headNotWs xs = true →
    headNotWs (collapseWs xs) = true
  | [] => fun _ => rfl
  | [c] => by
    intro h
    simp only [headNotWs, Bool.not_eq_true'] at h
    simp [collapseWs, h, headNotWs]
  | c :: d :: cs => by
    intro h
    simp only [headNotWs, Bool.not_eq_true'] at h
    simp [collapseWs, h, headNotWs]

theorem headNotWs_dropWhile : ∀ (xs : List Char),
    headNotWs (xs.dropWhile isPySpace) = true
  | [] => rfl
  | c :: cs => by
    by_cases h : isPySpace c = true
    · rw [List.dropWhile_cons_of_pos h]
      exact headNotWs_dropWhile cs
    · rw [List.dropWhile_cons_of_neg h]
      simp only [Bool.not_eq_true] at h
      simp [headNotWs, h]

theorem dropWhile_id_of_head {xs : List Char} (h : headNotWs xs = true) :
    xs.dropWhile isPySpace = xs := by
  cases xs with
  | nil => rfl
  | cons c cs =>
    simp only [headNotWs, Bool.not_eq_true'] at h
    rw [List.dropWhile_cons_of_neg (by simp [h])]

theorem noDbl_dropWhile : ∀ (l : List Char) (q : Char → Bool), noDblB l = true →
    noDblB (l.dropWhile q) = true
  | [], _, _ => rfl
  | a :: l, q, h => by
    by_cases hq : q a = true
    · rw [List.dropWhile_cons_of_pos hq]
      exact noDbl_dropWhile l q (noDbl_tail h)
    · rw [List.dropWhile_cons_of_neg hq]
      exact h

theorem noDbl_iff_chain : ∀ (l : List Char), noDblB l = true ↔
    l.Chain' (fun a b => ¬(isPySpace a = true ∧ isPySpace b = true))
  | [] => by simp [noDblB]
  | [a] => by simp [noDblB]
  | a :: b :: t => by
    rw [List.chain'_cons, ← noDbl_iff_chain (b :: t)]
    simp only [noDblB, Bool.and_eq_true]
    constructor
    · rintro ⟨hab, ht⟩
      refine ⟨?_, ht⟩
      rintro ⟨ha, hb⟩
      rw [ha, hb] at hab
      simp at hab
    · rintro ⟨hab, ht⟩
      refine ⟨?_, ht⟩
      cases ha : isPySpace a
      · simp
      · cases hb : isPySpace b
        · simp
        · exact absurd ⟨ha, hb⟩ hab

theorem noDbl_reverse {l : List Char} (h : noDblB l = true) :
    noDblB l.reverse = true := by
  rw [noDbl_iff_chain] at h ⊢
  rw [List.chain'_reverse]
  refine h.imp ?_
  intro a b hab
  simp only [flip]
  tauto

theorem noDbl_strip {xs : List Char} (h : noDblB xs = true) :
    noDblB (stripChars xs) = true := by
  unfold stripChars
  exact noDbl_reverse (noDbl_dropWhile _ _ (noDbl_reverse (noDbl_dropWhile _ _ h)))

theorem allSp_strip {xs : List Char} (h : allSpB xs = true) :
    allSpB (stripChars xs) = true := by
  unfold allSpB at h ⊢
  rw [List.all_eq_true] at h ⊢
  intro c hc
  refine h c ?_
  unfold stripChars at hc
  rw [List.mem_reverse] at hc
  have hc2 := (List.dropWhile_sublist _).subset hc
  rw [List.mem_reverse] at hc2
  exact (List.dropWhile_sublist _).subset hc2

theorem head_rstrip : ∀ (zs : List Char), headNotWs zs = true →
    headNotWs ((zs.reverse.dropWhile isPySpace).reverse) = true := by
  intro zs
  induction zs using List.reverseRecOn with
  | nil => intro _; rfl
  | append_singleton l a ih =>
    intro h
    rw [List.reverse_append, List.reverse_singleton, List.singleton_append]
    by_cases hq : isPySpace a = true
    · rw [List.dropWhile_cons_of_pos hq]
      cases hl : l with
      | nil => rfl
      | cons x xs =>
        rw [hl] at ih
        refine ih ?_
        rw [headNotWs_append] at h
        rw [if_neg (by rw [hl]; simp)] at h
        rw [hl] at h
        exact h
    · rw [List.dropWhile_cons_of_neg hq]
      rw [List.reverse_cons, List.reverse_reverse]
      rw [headNotWs_append] at h ⊢
      exact h

theorem headNotWs_strip (xs : List Char) : headNotWs (stripChars xs) = true := by
  unfold stripChars
  exact head_rstrip _ (headNotWs_dropWhile xs)

theorem lastNotWs_strip (xs : List Char) : lastNotWs (stripChars xs) = true := by
  unfold lastNotWs stripChars
  rw [List.reverse_reverse]
  exact headNotWs_dropWhile _

theorem strip_id_of_edges {l : List Char} (h1 : headNotWs l = true)
    (h2 : lastNotWs l = true) : stripChars l = l := by
  unfold stripChars
  rw [dropWhile_id_of_head h1]
  unfold lastNotWs at h2
  rw [dropWhile_id_of_head h2, List.reverse_reverse]

theorem normWs_wf (text : List Char) :
    noDblB (normWs text) = true ∧ allSpB (normWs text) = true ∧
      headNotWs (normWs text) = true ∧ lastNotWs (normWs text) = true :=
  ⟨noDbl_strip (collapse_noDbl text), allSp_strip (collapse_allSp text),
    headNotWs_strip _, lastNotWs_strip _⟩


theorem sentEnd_not_space {c : Char} (h : isSentEnd c = true) : isPySpace c = false := by
  simp [isSentEnd] at h
  rcases h with (h | h) | h <;> subst h <;> decide

theorem goSplit_ne_nil : ∀ (inSep : Bool) (cur xs : List Char), goSplit inSep cur xs ≠ []
  | _, cur, [] => by simp [goSplit]
  | inSep, cur, c :: rest => by
    unfold goSplit
    split
    · exact goSplit_ne_nil true cur rest
    · split
      · simp
      · exact goSplit_ne_nil false (c :: cur) rest

theorem joinSp_singleton (a : List Char) : joinSp [a] = a := by
  simp [joinSp, List.intercalate, List.intersperse]

theorem joinSp_cons (a : List Char) (l : List (List Char)) (h : l ≠ []) :
    joinSp (a :: l) = a ++ ' ' :: joinSp l := by
  cases l with
  | nil => exact absurd rfl h
  | cons b t => simp [joinSp, List.intercalate, List.intersperse]

theorem lastNotWs_cons {c : Char} {rest : List Char} (h : rest ≠ []) :
    lastNotWs (c :: rest) = lastNotWs rest := by
  unfold lastNotWs
  rw [List.reverse_cons, headNotWs_append, if_neg (by simpa using h)]

theorem goSplit_main : ∀ (xs cur : List Char) (inSep : Bool),
    noDblB xs = true → allSpB xs = true → lastNotWs xs = true →
    (inSep = true → cur = []) →
    (curNeeds cur = true → xs ≠ [] ∧ headNotWs xs = true) →
    lastNotWs cur = true →
    joinSp (goSplit inSep cur xs) = cur.reverse ++ xs ∧
      ∀ p ∈ goSplit inSep cur xs, p ≠ [] ∧ stripChars p = p
  | [], cur, inSep => by
    intro _ _ _ _ hfresh hlastcur
    have hcur : cur ≠ [] := by
      intro hc
      subst hc
      exact absurd rfl (hfresh rfl).1
    have hcurhead : headNotWs cur = true := by
      cases hcc : cur with
      | nil => rfl
      | cons a t =>
        cases ha : isPySpace a
        · simp [headNotWs, ha]
        · exfalso
          refine (hfresh ?_).1 rfl
          rw [hcc]
          simp [curNeeds, ha]
    constructor
    · show joinSp [cur.reverse] = cur.reverse ++ []
      rw [joinSp_singleton, List.append_nil]
    · intro p hp
      have hpe : p = cur.reverse := by simpa [goSplit] using hp
      subst hpe
      refine ⟨by simpa using hcur, ?_⟩
      refine strip_id_of_edges hlastcur ?_
      unfold lastNotWs
      rw [List.reverse_reverse]
      exact hcurhead
  | c :: rest, cur, inSep => by
    intro hnd hsp hlast hm hfresh hlastcur
    have hspace_facts : isPySpace c = true → rest ≠ [] ∧ headNotWs rest = true := by
      intro hcs
      constructor
      · intro hr
        subst hr
        unfold lastNotWs at hlast
        simp [headNotWs, hcs] at hlast
      · cases rest with
        | nil => rfl
        | cons d t =>
          rw [noDbl_cons] at hnd
          simp only [List.head?_cons] at hnd
          rw [Bool.and_eq_true] at hnd
          have h1 := hnd.1
          simp [hcs] at h1
          simp [headNotWs, h1]
    have hnd' : noDblB rest = true := noDbl_tail hnd
    have hsp' : allSpB rest = true := by
      unfold allSpB at hsp ⊢
      rw [List.all_cons, Bool.and_eq_true] at hsp
      exact hsp.2
    have hlast' : lastNotWs rest = true := by
      cases hr : rest with
      | nil => rfl
      | cons d t =>
        rw [← hr]
        rw [lastNotWs_cons (by rw [hr]; simp)] at hlast
        exact hlast
    by_cases hsepc : (inSep && isPySpace c) = true
    · exfalso
      obtain ⟨hsep, hcs⟩ : inSep = true ∧ isPySpace c = true := by simpa using hsepc
      have hc := hm hsep
      have hh := (hfresh (by rw [hc]; rfl)).2
      simp [headNotWs, hcs] at hh
    · by_cases hbr : (isPySpace c && headPunct cur) = true
      · obtain ⟨hcsp, hpun⟩ : isPySpace c = true ∧ headPunct cur = true := by
          simpa using hbr
        have hcur : cur ≠ [] := by
          intro hc
          rw [hc] at hpun
          exact absurd hpun (by decide)
        have hceq : c = ' ' := by
          have h2 := List.all_eq_true.mp hsp c (by simp)
          simp [hcsp] at h2
          exact h2
        have ih := goSplit_main rest [] true hnd' hsp' hlast'
          (fun _ => rfl) (fun _ => hspace_facts hcsp) rfl
        have hgs : goSplit inSep cur (c :: rest) = cur.reverse :: goSplit true [] rest := by
          conv_lhs => rw [goSplit]
          rw [if_neg hsepc, if_pos hbr]
        rw [hgs]
        constructor
        · rw [joinSp_cons _ _ (goSplit_ne_nil _ _ _), ih.1]
          simp [hceq]
        · intro p hp
          rcases List.mem_cons.mp hp with hpe | hpm
          · subst hpe
            refine ⟨by simpa using hcur, ?_⟩
            refine strip_id_of_edges hlastcur ?_
            unfold lastNotWs
            rw [List.reverse_reverse]
            cases hcc : cur with
            | nil => rfl
            | cons a t =>
              rw [hcc] at hpun
              simp only [headPunct] at hpun
              simp [headNotWs, sentEnd_not_space hpun]
          · exact ih.2 p hpm
      · have hc_nil_nospace : cur = [] → isPySpace c = false := by
          intro hc
          cases hcs : isPySpace c
          · rfl
          · exfalso
            have hh := (hfresh (by rw [hc]; rfl)).2
            simp [headNotWs, hcs] at hh
        have hlastcur' : lastNotWs (c :: cur) = true := by
          unfold lastNotWs
          rw [List.reverse_cons, headNotWs_append]
          cases hcc : cur with
          | nil => simp [hc_nil_nospace hcc]
          | cons a t =>
            rw [if_neg (by simp)]
            rw [hcc] at hlastcur
            exact hlastcur
        have ih := goSplit_main rest (c :: cur) false hnd' hsp' hlast'
          (fun h => absurd h (by decide))
          (fun h => hspace_facts (by simpa [curNeeds] using h))
          hlastcur'
        have hgs : goSplit inSep cur (c :: rest) = goSplit false (c :: cur) rest := by
          conv_lhs => rw [goSplit]
          rw [if_neg hsepc, if_neg hbr]
        rw [hgs]
        constructor
        · rw [ih.1, List.reverse_cons, List.append_assoc]
          rfl
        · exact ih.2


/-- C8 (amended): the chunker returns only non-empty chunks for every
input; and on whitespace-normalised input — which is exactly what
`speak()` produces with `re.sub(r'\s+', ' ', text).strip()` before
chunking — joining the chunks with single spaces reproduces the input.
(On raw input with internal unnormalised whitespace the join property
fails: see `c8_counterexample`.) -/
theorem c8_theorem (text : List Char) :
    (splitIntoSentences text).all (fun c => !c.isEmpty) = true ∧
    joinSp (splitIntoSentences (normWs text)) = normWs text := by
  constructor
  · rw [List.all_eq_true]
    intro c hc
    exact (List.mem_filter.mp hc).2
  · by_cases hy : normWs text = []
    · rw [hy]
      rfl
    · obtain ⟨w1, w2, w3, w4⟩ := normWs_wf text
      have main := goSplit_main (normWs text) [] false w1 w2 w4
        (fun _ => rfl) (fun _ => ⟨hy, w3⟩) rfl
      have hmap : (goSplit false [] (normWs text)).map stripChars =
          goSplit false [] (normWs text) := by
        conv_rhs => rw [← List.map_id (goSplit false [] (normWs text))]
        exact List.map_congr_left (fun p hp => (main.2 p hp).2)
      have hfil : ((goSplit false [] (normWs text)).filter fun s => !s.isEmpty) =
          goSplit false [] (normWs text) :=
        List.filter_eq_self.mpr fun p hp => by
          simp [List.isEmpty_iff, (main.2 p hp).1]
      unfold splitIntoSentences
      rw [hmap, hfil, main.1]
      simp


end Akshara
